import Mathlib

/-!
Verification of the data persistence and merge-import core of the
Advocate's Digital Diary repository.

The data model (`Hearing`, `CaseStatus`, `LegalCase`, `DiaryData`) is a
direct translation of the TypeScript interfaces of the repository's types
module.  The operations are translated from `src/App.tsx`
(`executeImport`, `executePurge`, `addOrUpdateCase`, `confirmDelete`,
`CaseForm.handleSubmit`) and from `src/utils/storage.ts`
(`loadDiaryData`, `exportToJson`, `importFromJson`,
`shouldShowBackupReminder`, `markBackupReminderAsShown`).

JSON values produced by the platform's `JSON.parse` are modelled by the
inductive type `Json`; the platform parse step itself is treated as the
environment boundary, so functions that consume a parsed blob take the
parse outcome (`none` for a syntax error) rather than raw text.
-/

namespace AdvocateDiary

/-- One historical calendar entry of a case (interface `Hearing`). -/
structure Hearing where
  id : String
  date : String
  note : String
  deriving DecidableEq, Repr

/-- The fixed case-status enumeration (enum `CaseStatus`). -/
inductive CaseStatus where
  | ongoing
  | disposed
  | stayed
  | appealed
  | dismissed
  deriving DecidableEq, Repr

/-- A tracked case (interface `LegalCase`). -/
structure LegalCase where
  id : String
  title : String
  referenceNumber : String
  courtName : String
  description : String
  status : CaseStatus
  nextHearingDate : String
  history : List Hearing
  createdAt : String
  deriving DecidableEq, Repr

/-- The persisted root object (interface `DiaryData`).  `lastBackupDate`
is `string | null` in the source, hence `Option String` here. -/
structure DiaryData where
  cases : List LegalCase
  lastBackupDate : Option String
  advocateName : String
  deriving DecidableEq, Repr

/-! ## Merge engine (`executeImport`, src/App.tsx lines 104-122) -/

/-- The case-list merge loop of `executeImport`: starting from a copy of
the current cases, each imported case is appended unless some case with
its id is already in the accumulated list (`mergedCases.find` truthy). -/
def mergeCases (current incoming : List LegalCase) : List LegalCase :=
  incoming.foldl
    (fun mergedCases importedCase =>
      if mergedCases.any (fun c => c.id = importedCase.id) then mergedCases
      else mergedCases ++ [importedCase])
    current

/-- `executeImport` applied to the previous dataset and the pending
(parsed) import: merge the case lists, keep every other field of `prev`,
and overwrite `advocateName` only when the incoming one is truthy
(a non-empty string; a JS-absent value is equally falsy). -/
def executeImport (prev pendingImportData : DiaryData) : DiaryData :=
  { prev with
    cases := mergeCases prev.cases pendingImportData.cases
    advocateName :=
      if pendingImportData.advocateName = "" then prev.advocateName
      else pendingImportData.advocateName }

/-- `executePurge` (src/App.tsx lines 124-138): the dataset is reset to
the fresh default. -/
def executePurge : DiaryData :=
  { cases := [], lastBackupDate := none, advocateName := "Counsel" }

/-- The case-list update performed by `addOrUpdateCase`: when
`findIndex` by id hits (`existingIdx >= 0`), assign the new record at
that index; otherwise `unshift` (prepend) it. -/
def updateCaseList (prevCases : List LegalCase) (c : LegalCase) :
    List LegalCase :=
  match prevCases.findIdx? (fun item => item.id = c.id) with
  | some existingIdx => prevCases.set existingIdx c
  | none => c :: prevCases

/-- `addOrUpdateCase` (src/App.tsx lines 140-153): replace the first
case whose id matches, otherwise `unshift` (prepend) the new case. -/
def addOrUpdateCase (prev : DiaryData) (c : LegalCase) : DiaryData :=
  { prev with cases := updateCaseList prev.cases c }

/-- `confirmDelete` (src/App.tsx lines 155-165), in the branch where a
case is staged for deletion: keep exactly the cases whose id differs. -/
def confirmDelete (prev : DiaryData) (caseToDelete : LegalCase) : DiaryData :=
  { prev with cases := prev.cases.filter (fun c => c.id ≠ caseToDelete.id) }

/-- The id projection of a dataset's case list. -/
def caseIds (d : DiaryData) : List String := d.cases.map (fun c => c.id)

/-! ## JSON values

`Json` models the values `JSON.parse` can produce (and `JSON.stringify`
serializes).  JSON numbers of this application are never inspected, so
an integer payload suffices for the model.  The platform parse and
stringify steps are the environment boundary: a function of the source
that consumes `JSON.parse(text)` here takes the parse outcome, `none`
standing for a thrown syntax error. -/

inductive Json where
  | null : Json
  | bool (b : Bool) : Json
  | num (n : Int) : Json
  | str (s : String) : Json
  | arr (elems : List Json) : Json
  | obj (fields : List (String × Json)) : Json
  deriving Repr

/-- First-match association lookup in a parsed object's field list
(a value produced by `JSON.parse` has unique keys). -/
def jsLookup : List (String × Json) → String → Option Json
  | [], _ => none
  | (k, v) :: rest, key => if k = key then some v else jsLookup rest key

/-- JS property access `value.key`: `undefined` (here `none`) on
anything but an object with that key. -/
def jsGet : Json → String → Option Json
  | .obj fields, key => jsLookup fields key
  | _, _ => none

/-- JS truthiness of a `JSON.parse` result. -/
def jsTruthy : Json → Bool
  | .null => false
  | .bool b => b
  | .num n => n != 0
  | .str s => s != ""
  | .arr _ => true
  | .obj _ => true

/-- `Array.isArray` applied to a possibly-`undefined` property. -/
def jsIsArray : Option Json → Bool
  | some (.arr _) => true
  | _ => false

/-! ## Record Schema as JSON (src types module and spec §6) -/

/-- The serialized form of a `CaseStatus` (the enum's string values). -/
def encodeStatus : CaseStatus → String
  | .ongoing => "Ongoing"
  | .disposed => "Disposed"
  | .stayed => "Stayed"
  | .appealed => "Appealed"
  | .dismissed => "Dismissed"

/-- `JSON.stringify` image of a `Hearing`. -/
def encodeHearing (h : Hearing) : Json :=
  .obj [("id", .str h.id), ("date", .str h.date), ("note", .str h.note)]

/-- `JSON.stringify` image of a `LegalCase`, every field included. -/
def encodeCase (c : LegalCase) : Json :=
  .obj [("id", .str c.id),
        ("title", .str c.title),
        ("referenceNumber", .str c.referenceNumber),
        ("courtName", .str c.courtName),
        ("description", .str c.description),
        ("status", .str (encodeStatus c.status)),
        ("nextHearingDate", .str c.nextHearingDate),
        ("history", .arr (c.history.map encodeHearing)),
        ("createdAt", .str c.createdAt)]

/-- `JSON.stringify` image of a `DiaryData` (a `null` backup date
serializes as JSON null). -/
def encodeDiaryData (d : DiaryData) : Json :=
  .obj [("cases", .arr (d.cases.map encodeCase)),
        ("lastBackupDate",
          match d.lastBackupDate with
          | none => Json.null
          | some s => Json.str s),
        ("advocateName", .str d.advocateName)]

/-- Reading a string-valued field of the Record Schema. -/
def getStr (fields : List (String × Json)) (key : String) : Option String :=
  match jsLookup fields key with
  | some (.str s) => some s
  | _ => none

/-- Reading a `CaseStatus` back from its serialized string. -/
def decodeStatus (s : String) : Option CaseStatus :=
  if s = "Ongoing" then some .ongoing
  else if s = "Disposed" then some .disposed
  else if s = "Stayed" then some .stayed
  else if s = "Appealed" then some .appealed
  else if s = "Dismissed" then some .dismissed
  else none

/-- Reading a `Hearing` of the Record Schema (spec §6 wire shape). -/
def decodeHearing : Json → Option Hearing
  | .obj fields =>
    match getStr fields "id", getStr fields "date", getStr fields "note" with
    | some i, some d, some n => some { id := i, date := d, note := n }
    | _, _, _ => none
  | _ => none

/-- Reading a whole hearing sequence. -/
def decodeHearingList : List Json → Option (List Hearing)
  | [] => some []
  | j :: rest =>
    match decodeHearing j, decodeHearingList rest with
    | some h, some hs => some (h :: hs)
    | _, _ => none

/-- Reading a `LegalCase` of the Record Schema (spec §6 wire shape). -/
def decodeCase : Json → Option LegalCase
  | .obj fields =>
    match getStr fields "id", getStr fields "title",
        getStr fields "referenceNumber", getStr fields "courtName",
        getStr fields "description" with
    | some i, some t, some r, some cn, some ds =>
      match getStr fields "status", getStr fields "nextHearingDate",
          getStr fields "createdAt", jsLookup fields "history" with
      | some st, some nh, some ca, some (.arr hs) =>
        match decodeStatus st, decodeHearingList hs with
        | some status, some history =>
          some { id := i, title := t, referenceNumber := r, courtName := cn,
                 description := ds, status := status, nextHearingDate := nh,
                 history := history, createdAt := ca }
        | _, _ => none
      | _, _, _, _ => none
    | _, _, _, _, _ => none
  | _ => none

/-- Reading a whole case sequence. -/
def decodeCaseList : List Json → Option (List LegalCase)
  | [] => some []
  | j :: rest =>
    match decodeCase j, decodeCaseList rest with
    | some c, some cs => some (c :: cs)
    | _, _ => none

/-- Reading the `string | null` backup-date field. -/
def decodeBackupDate : Option Json → Option (Option String)
  | some Json.null => some none
  | some (Json.str s) => some (some s)
  | _ => none

/-- Reading a full `DiaryData` of the Record Schema: the top level must
be an object with an array `cases` field, the backup date and advocate
name, each well-shaped. -/
def decodeDiaryData : Json → Option DiaryData
  | .obj fields =>
    match jsLookup fields "cases",
        decodeBackupDate (jsLookup fields "lastBackupDate"),
        getStr fields "advocateName" with
    | some (.arr cs), some lb, some an =>
      match decodeCaseList cs with
      | some cases =>
        some { cases := cases, lastBackupDate := lb, advocateName := an }
      | none => none
    | _, _, _ => none
  | _ => none

/-! ## Store adapter, backup codec, reminder gate (src/utils/storage.ts) -/

/-- The fresh default dataset of `loadDiaryData` and `executePurge`. -/
def defaultDiaryData : DiaryData :=
  { cases := [], lastBackupDate := none, advocateName := "Counsel" }

/-- `loadDiaryData` (storage.ts lines 11-30) over the parse outcome of
the stored blob: `none` = no blob, `some none` = the blob threw in
`JSON.parse` (caught locally), `some (some j)` = the blob parsed to
`j`, which is returned as-is (the source casts without validation).
The fresh-default branches return the default dataset's JSON value. -/
def loadDiaryData : Option (Option Json) → Json
  | none => encodeDiaryData defaultDiaryData
  | some none => encodeDiaryData defaultDiaryData
  | some (some parsed) => parsed

/-- `exportToJson` (storage.ts lines 32-45): the downloaded bytes are
the serialization of the dataset as passed in, and the returned copy
carries `lastBackupDate` stamped to the current time. -/
def exportToJson (data : DiaryData) (nowIso : String) : Json × DiaryData :=
  (encodeDiaryData data, { data with lastBackupDate := some nowIso })

/-- `importFromJson` (storage.ts lines 47-58) over the parse outcome of
the supplied text: `null` on a parse throw, and otherwise the parsed
value exactly when it is truthy and its `cases` property is an array. -/
def importFromJson : Option Json → Option Json
  | none => none
  | some data =>
    if jsTruthy data && jsIsArray (jsGet data "cases") then some data
    else none

/-- Spec-side acceptance condition of §4.3, as worded: the top-level
value is an object containing a `cases` field whose value is a
sequence. -/
def topLevelHasCasesArray : Json → Bool
  | .obj fields =>
    match jsLookup fields "cases" with
    | some (.arr _) => true
    | _ => false
  | _ => false

/-- `shouldShowBackupReminder` (storage.ts lines 60-69) as a function
of the stored prompt timestamp (the slot stores it as a decimal string;
`parseInt` recovers the integer written by `markBackupReminderAsShown`,
so the slot is modelled by the integer it holds) and of `Date.now()`. -/
def shouldShowBackupReminder (lastPrompt : Option Int) (now : Int) : Bool :=
  match lastPrompt with
  | none => true
  | some lastPromptTs => decide (now - lastPromptTs > 24 * 60 * 60 * 1000)

/-- `markBackupReminderAsShown` (storage.ts lines 71-73): the slot now
holds the current time. -/
def markBackupReminderAsShown (now : Int) : Option Int := some now

/-! ## Case form (`CaseForm.handleSubmit`, src/App.tsx lines 876-905) -/

/-- The form's field state at submit time. -/
structure CaseFormState where
  title : String
  refNum : String
  court : String
  desc : String
  status : CaseStatus
  nextDate : String
  hearingNote : String
  deriving DecidableEq, Repr

/-- `handleSubmit`: `none` when the required title or court is empty
(the alert path saves nothing); otherwise the `LegalCase` handed to
`onSave`.  A reschedule (editing an existing case whose truthy
`nextHearingDate` differs from the submitted one) appends one `Hearing`
carrying the old date.  `freshHearingId` and `freshCaseId` stand for
the `crypto.randomUUID()` calls, `nowIso` for `new Date().toISOString()`
and `formattedNextDate` for the locale-formatted `formatDate(nextDate)`
used in the default note. -/
def handleSubmit (initialData : Option LegalCase) (form : CaseFormState)
    (freshHearingId freshCaseId nowIso formattedNextDate : String) :
    Option LegalCase :=
  if form.title = "" ∨ form.court = "" then none
  else
    let history : List Hearing :=
      match initialData with
      | some c0 =>
        if c0.nextHearingDate ≠ "" ∧ form.nextDate ≠ c0.nextHearingDate then
          c0.history ++
            [{ id := freshHearingId
             , date := c0.nextHearingDate
             , note :=
                if form.hearingNote = "" then
                  "Hearing rescheduled to " ++ formattedNextDate
                else form.hearingNote }]
        else c0.history
      | none => []
    some
      { id :=
          match initialData with
          | some c0 => if c0.id = "" then freshCaseId else c0.id
          | none => freshCaseId
      , title := form.title
      , referenceNumber := form.refNum
      , courtName := form.court
      , description := form.desc
      , status := form.status
      , nextHearingDate := form.nextDate
      , history := history
      , createdAt :=
          match initialData with
          | some c0 => if c0.createdAt = "" then nowIso else c0.createdAt
          | none => nowIso }

/-- The stored case of the reschedule scenario (§8): next hearing on
2024-01-10, empty history. -/
def rescheduleCase : LegalCase :=
  { id := "C", title := "T", referenceNumber := "r", courtName := "HC"
  , description := "", status := .ongoing, nextHearingDate := "2024-01-10"
  , history := [], createdAt := "2024-01-01" }

/-- The submitted form of the reschedule scenario: the next hearing is
moved to 2024-02-15. -/
def rescheduleForm : CaseFormState :=
  { title := "T", refNum := "r", court := "HC", desc := ""
  , status := .ongoing, nextDate := "2024-02-15", hearingNote := "" }

/-! ## Concrete sample data for the spec's scenarios -/

/-- The current dataset's case `A` with title "Old" (spec §8 scenario). -/
def caseAOld : LegalCase :=
  { id := "A", title := "Old", referenceNumber := "r1", courtName := "HC"
  , description := "", status := .ongoing, nextHearingDate := ""
  , history := [], createdAt := "2024-01-01" }

/-- The imported dataset's conflicting case `A` with title "New". -/
def caseANew : LegalCase :=
  { id := "A", title := "New", referenceNumber := "r2", courtName := "HC"
  , description := "", status := .ongoing, nextHearingDate := ""
  , history := [], createdAt := "2024-01-02" }

/-- The imported dataset's fresh case `B`. -/
def caseB : LegalCase :=
  { id := "B", title := "B title", referenceNumber := "r3", courtName := "DC"
  , description := "", status := .ongoing, nextHearingDate := ""
  , history := [], createdAt := "2024-01-03" }

/-- Current dataset of the overlapping-id import scenario. -/
def currentAB : DiaryData :=
  { cases := [caseAOld], lastBackupDate := none, advocateName := "Counsel" }

/-- Imported dataset of the overlapping-id import scenario. -/
def importAB : DiaryData :=
  { cases := [caseANew, caseB], lastBackupDate := none, advocateName := "" }

/-! ## Spec-side restatement of the merge policy (for refinement) -/

/-- The merge policy exactly as the spec words it (§4.5): start the
result as a copy of current; for each incoming case, in its given order,
append it when no case with the same id is already in the result, and
skip it otherwise. -/
def mergeCasesSpec : List LegalCase → List LegalCase → List LegalCase
  | result, [] => result
  | result, c :: rest =>
    if c.id ∈ result.map (fun x => x.id) then mergeCasesSpec result rest
    else mergeCasesSpec (result ++ [c]) rest

/-! ## Basic merge lemmas -/

theorem mergeCases_nil (cur : List LegalCase) : mergeCases cur [] = cur := rfl

theorem mergeCases_cons (cur : List LegalCase) (ic : LegalCase)
    (rest : List LegalCase) :
    mergeCases cur (ic :: rest) =
      mergeCases
        (if cur.any (fun c => c.id = ic.id) then cur else cur ++ [ic]) rest := rfl

/-- Merging only ever appends: the current list is kept as an unchanged
initial segment of the result. -/
theorem mergeCases_suffix (inc : List LegalCase) :
    ∀ cur, ∃ extra, mergeCases cur inc = cur ++ extra := by
  induction inc with
  | nil => exact fun cur => ⟨[], by simp [mergeCases]⟩
  | cons ic rest ih =>
    intro cur
    rw [mergeCases_cons]
    by_cases h : cur.any (fun c => c.id = ic.id) = true
    · rw [if_pos h]; exact ih cur
    · rw [if_neg h]
      obtain ⟨e, he⟩ := ih (cur ++ [ic])
      exact ⟨ic :: e, by rw [he, List.append_assoc]; rfl⟩

theorem any_id_mergeCases (inc : List LegalCase) (cur : List LegalCase)
    (i : String) (h : cur.any (fun c => c.id = i) = true) :
    (mergeCases cur inc).any (fun c => c.id = i) = true := by
  obtain ⟨e, he⟩ := mergeCases_suffix inc cur
  rw [he, List.any_append, h, Bool.true_or]

theorem any_id_mergeCases_of_mem (inc : List LegalCase) :
    ∀ (cur : List LegalCase) (b : LegalCase), b ∈ inc →
      (mergeCases cur inc).any (fun c => c.id = b.id) = true := by
  induction inc with
  | nil => intro cur b hb; cases hb
  | cons ic rest ih =>
    intro cur b hb
    rw [mergeCases_cons]
    rcases List.mem_cons.mp hb with rfl | hb2
    · by_cases h : cur.any (fun c => c.id = b.id) = true
      · rw [if_pos h]; exact any_id_mergeCases rest cur b.id h
      · rw [if_neg h]
        apply any_id_mergeCases
        simp [List.any_append]
    · exact ih _ b hb2

/-- When every incoming id is already present, the merge loop changes
nothing. -/
theorem mergeCases_noop (inc : List LegalCase) :
    ∀ cur, (∀ b ∈ inc, cur.any (fun c => c.id = b.id) = true) →
      mergeCases cur inc = cur := by
  induction inc with
  | nil => intro cur _; rfl
  | cons ic rest ih =>
    intro cur h
    rw [mergeCases_cons, if_pos (h ic (by simp))]
    exact ih cur (fun b hb => h b (by simp [hb]))

theorem mergeCases_merge_self (cur inc : List LegalCase) :
    mergeCases (mergeCases cur inc) inc = mergeCases cur inc :=
  mergeCases_noop inc _ (fun b hb => any_id_mergeCases_of_mem inc cur b hb)

/-- The source's truthy `find` test agrees with membership of the id in
the projected id list. -/
theorem any_id_iff_mem_map (l : List LegalCase) (i : String) :
    l.any (fun c => c.id = i) = true ↔ i ∈ l.map (fun c => c.id) := by
  simp [List.any_eq_true, List.mem_map]

/-- The `executeImport` merge loop computes exactly the spec's worded
policy. -/
theorem mergeCases_eq_spec (inc : List LegalCase) :
    ∀ cur, mergeCases cur inc = mergeCasesSpec cur inc := by
  induction inc with
  | nil => intro cur; rfl
  | cons ic rest ih =>
    intro cur
    rw [mergeCases_cons]
    by_cases h : cur.any (fun c => c.id = ic.id) = true
    · rw [if_pos h, mergeCasesSpec,
        if_pos ((any_id_iff_mem_map cur ic.id).mp h)]
      exact ih cur
    · rw [if_neg h, mergeCasesSpec,
        if_neg (fun hm => h ((any_id_iff_mem_map cur ic.id).mpr hm))]
      exact ih (cur ++ [ic])

/-- How often an id occurs in the merged list: every occurrence of the
current list survives, and one copy is added exactly when the id was
absent from the current list and occurs among the incoming ids. -/
theorem countP_id_mergeCases (inc : List LegalCase) :
    ∀ (cur : List LegalCase) (i : String),
      (mergeCases cur inc).countP (fun c => c.id = i) =
        cur.countP (fun c => c.id = i) +
          (if cur.any (fun c => c.id = i) = false ∧ i ∈ inc.map (fun c => c.id)
           then 1 else 0) := by
  induction inc with
  | nil => intro cur i; simp [mergeCases]
  | cons ic rest ih =>
    intro cur i
    rw [mergeCases_cons]
    by_cases h : cur.any (fun c => c.id = ic.id) = true
    · rw [if_pos h, ih]
      by_cases hic : i = ic.id
      · subst hic
        simp [h]
      · simp [List.map_cons, List.mem_cons, hic]
    · rw [if_neg h, ih]
      by_cases hic : i = ic.id
      · subst hic
        have hone : List.countP (fun c => decide (c.id = ic.id)) [ic] = 1 := by
          simp [List.countP_cons]
        have hany : (cur ++ [ic]).any (fun c => c.id = ic.id) = true := by
          simp [List.any_append]
        rw [List.countP_append, hone, hany]
        simp [Bool.eq_false_iff.mpr h]
      · have hzero : List.countP (fun c => decide (c.id = i)) [ic] = 0 := by
          simp [List.countP_cons]
          exact fun he => absurd he.symm hic
        have hany : (cur ++ [ic]).any (fun c => c.id = i) =
            cur.any (fun c => c.id = i) := by
          simp [List.any_append]
          intro he
          exact absurd he.symm hic
        rw [List.countP_append, hzero, hany]
        simp [List.map_cons, List.mem_cons, hic]

/-- An incoming case whose id is nowhere in the accumulated list is
appended, provided the incoming ids are pairwise distinct. -/
theorem mem_mergeCases_of_new (inc : List LegalCase) :
    ∀ (cur : List LegalCase) (c : LegalCase),
      (inc.map (fun x => x.id)).Nodup → c ∈ inc →
      cur.any (fun x => x.id = c.id) = false → c ∈ mergeCases cur inc := by
  induction inc with
  | nil => intro cur c _ hc _; cases hc
  | cons ic rest ih =>
    intro cur c hnd hc hnot
    rw [List.map_cons, List.nodup_cons] at hnd
    have hnd' := hnd
    rw [mergeCases_cons]
    rcases List.mem_cons.mp hc with rfl | hc2
    · rw [if_neg (by simp [hnot])]
      obtain ⟨e, he⟩ := mergeCases_suffix rest (cur ++ [c])
      rw [he]
      exact List.mem_append_left _ (List.mem_append_right _ (by simp))
    · have hne : c.id ≠ ic.id := by
        intro he
        exact hnd'.1 (he ▸ (List.mem_map.mpr ⟨c, hc2, rfl⟩))
      by_cases h : cur.any (fun x => x.id = ic.id) = true
      · rw [if_pos h]; exact ih cur c hnd'.2 hc2 hnot
      · rw [if_neg h]
        apply ih _ c hnd'.2 hc2
        rw [List.any_append, hnot]
        simp
        exact fun he => absurd he.symm hne

/-! ## Claim theorems on the merge engine -/

/-- C1: `executeImport` builds the merged case list by starting from a
copy of the current cases and, for each incoming case in its given
order, appending it when no case with the same id is present and
skipping it otherwise (local record wins, no field merge); on the
spec's concrete scenario (current has case A "Old"; import has case A
"New" and case B) the result is exactly [case A "Old", case B]. -/
theorem executeImport_follows_merge_policy_C1 :
    (∀ current incoming : DiaryData,
        (executeImport current incoming).cases =
          mergeCasesSpec current.cases incoming.cases) ∧
    (executeImport currentAB importAB).cases = [caseAOld, caseB] ∧
    caseAOld.title = "Old" ∧ caseANew.title = "New" := by
  refine ⟨fun current incoming => ?_, by decide, rfl, rfl⟩
  exact mergeCases_eq_spec incoming.cases current.cases

/-- C2: the merge never deletes or mutates a current case (each one is
still a member of the result), never shrinks the case list, and — for
an import whose ids are pairwise distinct, as the Dataset invariant
demands — every incoming case with a fresh id lands in the result
exactly once. -/
theorem executeImport_nondestructive_additive_C2
    (current incoming : DiaryData) :
    (∀ c ∈ current.cases, c ∈ (executeImport current incoming).cases) ∧
    current.cases.length ≤ (executeImport current incoming).cases.length ∧
    ((incoming.cases.map (fun c => c.id)).Nodup →
      ∀ c ∈ incoming.cases, c.id ∉ current.cases.map (fun x => x.id) →
        (executeImport current incoming).cases.count c = 1) := by
  obtain ⟨e, he⟩ := mergeCases_suffix incoming.cases current.cases
  have hcases : (executeImport current incoming).cases =
      mergeCases current.cases incoming.cases := rfl
  refine ⟨?_, ?_, ?_⟩
  · intro c hc
    rw [hcases, he]
    exact List.mem_append_left _ hc
  · rw [hcases, he]
    simp
  · intro hnd c hc hid
    rw [hcases]
    have hanyf : current.cases.any (fun x => x.id = c.id) = false := by
      rw [Bool.eq_false_iff]
      intro ha
      exact hid ((any_id_iff_mem_map _ _).mp ha)
    have hmem : c ∈ mergeCases current.cases incoming.cases :=
      mem_mergeCases_of_new incoming.cases current.cases c hnd hc hanyf
    have hcp : (mergeCases current.cases incoming.cases).countP
        (fun x => x.id = c.id) = 1 := by
      rw [countP_id_mergeCases]
      have h0 : current.cases.countP (fun x => x.id = c.id) = 0 := by
        rw [List.countP_eq_zero]
        intro a ha
        simp
        intro hae
        exact hid (hae ▸ List.mem_map.mpr ⟨a, ha, rfl⟩)
      rw [h0, if_pos ⟨hanyf, List.mem_map.mpr ⟨c, hc, rfl⟩⟩]
    have hle : (mergeCases current.cases incoming.cases).count c ≤ 1 := by
      rw [← hcp]
      apply List.countP_mono_left
      intro a _ hac
      have : a = c := by simpa using hac
      simp [this]
    have hge : 0 < (mergeCases current.cases incoming.cases).count c :=
      List.count_pos_iff.mpr hmem
    omega

/-- C2 witness: the scenario datasets satisfy the conclusion — case A
"Old" survives the merge and the fresh case B occurs exactly once. -/
theorem executeImport_nondestructive_additive_C2_witness :
    caseAOld ∈ (executeImport currentAB importAB).cases ∧
    (executeImport currentAB importAB).cases.count caseB = 1 := by
  have h := executeImport_nondestructive_additive_C2 currentAB importAB
  exact ⟨h.1 caseAOld (by decide), h.2.2 (by decide) caseB (by decide) (by decide)⟩

/-- C3: merging the same import a second time is a no-op: all incoming
ids are already present after the first merge, and the advocate-name
overwrite is itself idempotent. -/
theorem executeImport_idempotent_C3 (A B : DiaryData) :
    executeImport (executeImport A B) B = executeImport A B := by
  have hcases : mergeCases (mergeCases A.cases B.cases) B.cases =
      mergeCases A.cases B.cases := mergeCases_merge_self A.cases B.cases
  simp only [executeImport]
  rw [hcases]
  by_cases h : B.advocateName = "" <;> simp [h]

/-- C7: the merged dataset's `advocateName` is the incoming one exactly
when it is truthy (present and non-empty), otherwise the current one;
`lastBackupDate` — the only other current-only field — is untouched. -/
theorem executeImport_frame_C7 (current incoming : DiaryData) :
    (executeImport current incoming).advocateName =
      (if incoming.advocateName = "" then current.advocateName
       else incoming.advocateName) ∧
    (executeImport current incoming).lastBackupDate =
      current.lastBackupDate :=
  ⟨rfl, rfl⟩

/-! ## Id-uniqueness invariant -/

/-- The merge loop never introduces a duplicate id. -/
theorem mergeCases_nodup_ids (inc : List LegalCase) :
    ∀ cur, (cur.map (fun c => c.id)).Nodup →
      ((mergeCases cur inc).map (fun c => c.id)).Nodup := by
  induction inc with
  | nil => intro cur h; exact h
  | cons ic rest ih =>
    intro cur h
    rw [mergeCases_cons]
    by_cases hany : cur.any (fun c => c.id = ic.id) = true
    · rw [if_pos hany]
      exact ih cur h
    · rw [if_neg hany]
      apply ih
      have hperm : List.Perm ((cur ++ [ic]).map (fun c => c.id))
          (ic.id :: cur.map (fun c => c.id)) := by
        rw [List.map_append]
        exact List.perm_append_singleton _ _
      apply hperm.nodup_iff.mpr
      rw [List.nodup_cons]
      exact ⟨fun hm => hany ((any_id_iff_mem_map cur ic.id).mpr hm), h⟩

/-- Updating in place at the index `findIdx?` returns (or prepending
when it returns none) keeps the id projection duplicate-free. -/
theorem updateCaseList_nodup_ids (c : LegalCase) :
    ∀ (l : List LegalCase), (l.map (fun x => x.id)).Nodup →
      ((updateCaseList l c).map (fun x => x.id)).Nodup := by
  intro l
  induction l with
  | nil =>
    intro _
    simp [updateCaseList, List.findIdx?]
  | cons a t ih =>
    intro hnd
    rw [List.map_cons, List.nodup_cons] at hnd
    by_cases hp : a.id = c.id
    · have hfind : (a :: t).findIdx? (fun item => item.id = c.id) = some 0 := by
        rw [List.findIdx?_cons, if_pos (by simp [hp])]
      simp only [updateCaseList, hfind, List.set_cons_zero]
      rw [List.map_cons, List.nodup_cons]
      exact ⟨hp ▸ hnd.1, hnd.2⟩
    · have hstep : (a :: t).findIdx? (fun item => item.id = c.id) =
          (t.findIdx? (fun item => item.id = c.id)).map (fun i => i + 1) := by
        rw [List.findIdx?_cons, if_neg (by simp [hp]), List.findIdx?_succ]
      cases hfind : t.findIdx? (fun item => item.id = c.id) with
      | none =>
        have hcons : (a :: t).findIdx? (fun item => item.id = c.id) = none := by
          rw [hstep, hfind, Option.map_none']
        have hct : c.id ∉ t.map (fun x => x.id) := by
          rw [List.findIdx?_eq_none_iff] at hfind
          intro hm
          obtain ⟨x, hx, hxe⟩ := List.mem_map.mp hm
          have hfx := hfind x hx
          simp at hfx
          exact hfx hxe
        simp only [updateCaseList, hcons]
        rw [List.map_cons, List.map_cons, List.nodup_cons, List.nodup_cons]
        refine ⟨?_, hnd.1, hnd.2⟩
        rw [List.mem_cons]
        rintro (he | hm)
        · exact hp he.symm
        · exact hct hm
      | some j =>
        have hcons : (a :: t).findIdx? (fun item => item.id = c.id) =
            some (j + 1) := by
          rw [hstep, hfind, Option.map_some']
        simp only [updateCaseList, hcons, List.set_cons_succ]
        rw [List.map_cons, List.nodup_cons]
        constructor
        · intro hm
          rw [List.map_set] at hm
          rcases List.mem_or_eq_of_mem_set hm with h1 | h2
          · exact hnd.1 h1
          · exact hp h2
        · have hres := ih hnd.2
          simp only [updateCaseList, hfind] at hres
          exact hres

/-- C10: starting from a dataset whose case ids are pairwise distinct,
every mutating operation — in-place update or prepend
(`addOrUpdateCase`), delete by id (`confirmDelete`), id-guarded append
merge (`executeImport`) and reset (`executePurge`) — yields a dataset
whose case ids are again pairwise distinct. -/
theorem mutations_keep_ids_nodup_C10 (d : DiaryData)
    (h : (caseIds d).Nodup) :
    (∀ c : LegalCase, (caseIds (addOrUpdateCase d c)).Nodup) ∧
    (∀ x : LegalCase, (caseIds (confirmDelete d x)).Nodup) ∧
    (∀ incoming : DiaryData, (caseIds (executeImport d incoming)).Nodup) ∧
    (caseIds executePurge).Nodup := by
  refine ⟨?_, ?_, ?_, by simp [caseIds, executePurge]⟩
  · intro c
    exact updateCaseList_nodup_ids c d.cases h
  · intro x
    have hsub : List.Sublist ((confirmDelete d x).cases.map (fun c => c.id))
        (d.cases.map (fun c => c.id)) :=
      (List.filter_sublist _).map _
    exact hsub.nodup h
  · intro incoming
    exact mergeCases_nodup_ids incoming.cases d.cases h

/-- C10 witness: on the concrete scenario dataset every mutation keeps
the id list duplicate-free. -/
theorem mutations_keep_ids_nodup_C10_witness :
    (caseIds (addOrUpdateCase currentAB caseB)).Nodup ∧
    (caseIds (confirmDelete currentAB caseAOld)).Nodup ∧
    (caseIds (executeImport currentAB importAB)).Nodup ∧
    (caseIds executePurge).Nodup := by
  have h := mutations_keep_ids_nodup_C10 currentAB (by decide)
  exact ⟨h.1 caseB, h.2.1 caseAOld, h.2.2.1 importAB, h.2.2.2⟩

/-! ## Record Schema round-trip lemmas -/

theorem decodeHearing_encodeHearing (h : Hearing) :
    decodeHearing (encodeHearing h) = some h := rfl

theorem decodeHearingList_encode (hs : List Hearing) :
    decodeHearingList (hs.map encodeHearing) = some hs := by
  induction hs with
  | nil => rfl
  | cons h t ih =>
    rw [List.map_cons]
    simp only [decodeHearingList, decodeHearing_encodeHearing, ih]

theorem decodeStatus_encodeStatus (s : CaseStatus) :
    decodeStatus (encodeStatus s) = some s := by
  cases s <;> rfl

theorem decodeCase_encodeCase (c : LegalCase) :
    decodeCase (encodeCase c) = some c := by
  have hh := decodeHearingList_encode c.history
  have hs := decodeStatus_encodeStatus c.status
  simp [encodeCase, decodeCase, getStr, jsLookup, hs, hh]

theorem decodeCaseList_encode (cs : List LegalCase) :
    decodeCaseList (cs.map encodeCase) = some cs := by
  induction cs with
  | nil => rfl
  | cons c t ih =>
    rw [List.map_cons]
    simp only [decodeCaseList, decodeCase_encodeCase, ih]

theorem decodeDiaryData_encodeDiaryData (d : DiaryData) :
    decodeDiaryData (encodeDiaryData d) = some d := by
  have hc := decodeCaseList_encode d.cases
  cases hlb : d.lastBackupDate with
  | none =>
    simp [encodeDiaryData, decodeDiaryData, jsLookup, getStr,
      decodeBackupDate, hlb, hc]
    rw [← hlb]
  | some s =>
    simp [encodeDiaryData, decodeDiaryData, jsLookup, getStr,
      decodeBackupDate, hlb, hc]
    rw [← hlb]

/-! ## Claim theorems on the store adapter, codec and reminder gate -/

/-- C4 counterexample: the stored blob `[]` parses as JSON (to the
empty array), fails to parse as the Record Schema, yet `loadDiaryData`
returns it unchanged instead of the fresh default dataset. -/
theorem loadDiaryData_keeps_nonSchema_blob_C4 :
    decodeDiaryData (Json.arr []) = none ∧
    loadDiaryData (some (some (Json.arr []))) = Json.arr [] ∧
    loadDiaryData (some (some (Json.arr []))) ≠
      encodeDiaryData defaultDiaryData := by
  refine ⟨rfl, rfl, ?_⟩
  intro h
  exact Json.noConfusion h

/-- C4 amended: when no blob exists or the blob throws in `JSON.parse`,
`loadDiaryData` returns the fresh default dataset (itself Record-Schema
valid) and never propagates the failure — the function is total; but a
blob that parses as JSON is returned as-is, with no Record-Schema
validation. -/
theorem loadDiaryData_fallback_C4 :
    loadDiaryData none = encodeDiaryData defaultDiaryData ∧
    loadDiaryData (some none) = encodeDiaryData defaultDiaryData ∧
    decodeDiaryData (encodeDiaryData defaultDiaryData) =
      some defaultDiaryData ∧
    (∀ j : Json, loadDiaryData (some (some j)) = j) :=
  ⟨rfl, rfl, rfl, fun _ => rfl⟩

/-- C5: `importFromJson` returns the parsed value exactly when the top
level is an object containing a `cases` field holding an array, and
`ParseFailure` (`none`) on a parse throw or any other shape; it is a
total function, so nothing escapes the boundary. -/
theorem importFromJson_shape_check_C5 :
    importFromJson none = none ∧
    (∀ j : Json, importFromJson (some j) =
      if topLevelHasCasesArray j then some j else none) := by
  refine ⟨rfl, fun j => ?_⟩
  cases j with
  | null => rfl
  | bool b => cases b <;> rfl
  | num n =>
    simp [importFromJson, jsTruthy, jsGet, jsIsArray, topLevelHasCasesArray]
  | str s =>
    simp [importFromJson, jsTruthy, jsGet, jsIsArray, topLevelHasCasesArray]
  | arr elems => rfl
  | obj fields =>
    cases h : jsLookup fields "cases" with
    | none =>
      simp [importFromJson, jsTruthy, jsGet, jsIsArray,
        topLevelHasCasesArray, h]
    | some v =>
      cases v <;>
        simp [importFromJson, jsTruthy, jsGet, jsIsArray,
          topLevelHasCasesArray, h]

/-- C6: the bytes produced by export are accepted by import unchanged,
and reading them back through the Record Schema yields the original
dataset field for field, nested hearing sequences included. -/
theorem export_import_roundTrip_C6 (D : DiaryData) (nowIso : String) :
    importFromJson (some (exportToJson D nowIso).1) =
      some (encodeDiaryData D) ∧
    decodeDiaryData (encodeDiaryData D) = some D := by
  constructor
  · show importFromJson (some (encodeDiaryData D)) = some (encodeDiaryData D)
    simp [importFromJson, encodeDiaryData, jsTruthy, jsGet, jsLookup,
      jsIsArray]
  · exact decodeDiaryData_encodeDiaryData D

/-- C8: the reminder fires exactly when no prompt timestamp was ever
recorded or more than 24 hours (86,400,000 ms) elapsed since it; in
particular it fires with an empty slot, stays quiet 23h59m after
`markBackupReminderAsShown`, and fires again at 24h0m1s. -/
theorem shouldShowBackupReminder_threshold_C8 :
    (∀ (lastPrompt : Option Int) (now : Int),
      shouldShowBackupReminder lastPrompt now = true ↔
        lastPrompt = none ∨
          ∃ ts, lastPrompt = some ts ∧ now - ts > 86400000) ∧
    (∀ T : Int,
      shouldShowBackupReminder none T = true ∧
      shouldShowBackupReminder (markBackupReminderAsShown T)
        (T + 86340000) = false ∧
      shouldShowBackupReminder (markBackupReminderAsShown T)
        (T + 86401000) = true) := by
  constructor
  · intro lastPrompt now
    cases lastPrompt with
    | none => simp [shouldShowBackupReminder]
    | some ts =>
      simp [shouldShowBackupReminder]
  · intro T
    refine ⟨rfl, ?_, ?_⟩
    · simp only [markBackupReminderAsShown, shouldShowBackupReminder,
        decide_eq_false_iff_not]
      omega
    · simp only [markBackupReminderAsShown, shouldShowBackupReminder,
        decide_eq_true_eq]
      omega

/-- C9: submitting an edit of a case whose next hearing was 2024-01-10
(history empty) with the new date 2024-02-15 saves a case whose history
is exactly one new Hearing carrying the old date 2024-01-10 and whose
next hearing is 2024-02-15; `addOrUpdateCase` then replaces the stored
record in place. -/
theorem handleSubmit_reschedule_appends_history_C9
    (c0 : LegalCase) (form : CaseFormState)
    (newId freshCaseId nowIso fmt : String)
    (h0 : c0.nextHearingDate = "2024-01-10")
    (hh : c0.history = [])
    (hd : form.nextDate = "2024-02-15")
    (ht : form.title ≠ "") (hc : form.court ≠ "")
    (hcid : c0.id ≠ "") :
    ∃ updated newHearing,
      handleSubmit (some c0) form newId freshCaseId nowIso fmt =
        some updated ∧
      updated.history = [newHearing] ∧
      newHearing.date = "2024-01-10" ∧
      updated.nextHearingDate = "2024-02-15" ∧
      ∀ prev : DiaryData, prev.cases = [c0] →
        (addOrUpdateCase prev updated).cases = [updated] := by
  have hcond : ¬(form.title = "" ∨ form.court = "") := fun h => h.elim ht hc
  have hres : c0.nextHearingDate ≠ "" ∧ form.nextDate ≠ c0.nextHearingDate := by
    rw [h0, hd]
    exact ⟨by decide, by decide⟩
  simp only [handleSubmit, if_neg hcond, if_pos hres, hh, List.nil_append]
  refine ⟨_, _, rfl, rfl, h0, hd, ?_⟩
  intro prev hprev
  simp only [addOrUpdateCase, updateCaseList, hprev, List.findIdx?_cons,
    if_neg hcid]
  simp

/-- C9 witness: the scenario at concrete inputs. -/
theorem handleSubmit_reschedule_appends_history_C9_witness :
    ∃ updated newHearing,
      handleSubmit (some rescheduleCase) rescheduleForm "h-1" "c-1"
        "2024-02-01T00:00:00Z" "Feb 15, 2024" = some updated ∧
      updated.history = [newHearing] ∧
      newHearing.date = "2024-01-10" ∧
      updated.nextHearingDate = "2024-02-15" ∧
      ∀ prev : DiaryData, prev.cases = [rescheduleCase] →
        (addOrUpdateCase prev updated).cases = [updated] :=
  handleSubmit_reschedule_appends_history_C9 rescheduleCase rescheduleForm
    "h-1" "c-1" "2024-02-01T00:00:00Z" "Feb 15, 2024"
    rfl rfl rfl (by decide) (by decide) (by decide)

end AdvocateDiary
